import Mathlib

/-!
Verification of the document-to-structured-data pipeline and consolidation
engine of `document_processor.py` (class `DocumentProcessor`).

The Python code is shallowly embedded: Python `float` values are modelled as
exact rationals (`ℚ`), Python dicts holding product records become the
structure `Produto`, and the insertion-ordered dict used by
`_consolidate_products` becomes an insertion-ordered association list.
String processing (regex substitutions and searches used by
`_generate_product_key`, `_parse_numeric_value` and `_clean_json_response`)
is modelled character by character over `List Char`, restricted to the
ASCII fragment the code paths exercise.
-/

/-- A normalized product record, the dict produced by
`DocumentProcessor._normalize_product_data`. -/
structure Produto where
  codigo : String
  referencia : String
  descricao : String
  quantidade : ℚ
  valor_unitario : ℚ
  valor_total : ℚ
  fonte : String
deriving DecidableEq, Repr

/-- The left-brace character, written via its code point. -/
def lbrace : Char := Char.ofNat 123

/-- The right-brace character, written via its code point. -/
def rbrace : Char := Char.ofNat 125

/-- The backtick character, written via its code point. -/
def btick : Char := Char.ofNat 96

/-- Python `\s` on the ASCII range: space, tab, newline, carriage return,
vertical tab, form feed. -/
def pyIsSpace (c : Char) : Bool :=
  c = ' ' || c = '\t' || c = '\n' || c = '\x0d' || c = '\x0b' || c = '\x0c'

/-- Python `\w` (ASCII fragment): letters, digits, underscore. -/
def pyIsWord (c : Char) : Bool :=
  c.isAlphanum || c = '_'

/-- One maximal run of whitespace becomes a single blank: the effect of
`re.sub(r'\s+', ' ', s)`.  The flag records whether the previous character
was part of a whitespace run already replaced. -/
def collapseWsGo : Bool → List Char → List Char
  | _, [] => []
  | prevWs, c :: cs =>
    if pyIsSpace c then
      if prevWs then collapseWsGo true cs else ' ' :: collapseWsGo true cs
    else c :: collapseWsGo false cs

/-- `re.sub(r'\s+', ' ', s)`. -/
def collapseWs (cs : List Char) : List Char :=
  collapseWsGo false cs

/-- Python `str.strip()` on the ASCII fragment: drop leading and trailing
whitespace. -/
def pyStrip (s : String) : String :=
  String.mk (((s.data.dropWhile pyIsSpace).reverse.dropWhile pyIsSpace).reverse)

/-- Python `str.lower()` on the ASCII fragment. -/
def pyLower (s : String) : String :=
  String.mk (s.data.map Char.toLower)

/-- The description-normalization inside `_generate_product_key`:
`desc.lower().strip()`, then `re.sub(r'[^\w\s]', '', desc)`, then
`re.sub(r'\s+', ' ', desc)`. -/
def normalizeDescricao (s : String) : String :=
  String.mk (collapseWs ((pyStrip (pyLower s)).data.filter
    (fun c => pyIsWord c || pyIsSpace c)))

/-- `DocumentProcessor._generate_product_key`: priority
codigo, then referencia, then normalized description. -/
def generateProductKey (p : Produto) : String :=
  if p.codigo ≠ "" then "codigo_" ++ p.codigo
  else if p.referencia ≠ "" then "ref_" ++ p.referencia
  else "desc_" ++ normalizeDescricao p.descricao

/-- Does `hay` start with `needle`? -/
def startsWithList : List Char → List Char → Bool
  | [], _ => true
  | _ :: _, [] => false
  | a :: as, b :: bs => a = b && startsWithList as bs

/-- Python's substring test `needle in hay`. -/
def containsList : List Char → List Char → Bool
  | needle, [] => needle.isEmpty
  | needle, h :: t => startsWithList needle (h :: t) || containsList needle t

/-- The duplicate-merging branch of `_consolidate_products`: quantities and
totals are summed, the unit price is recomputed as total divided by quantity
when the merged quantity is positive, and the incoming source file name is
appended (comma separated) unless it already occurs as a substring of the
accumulated source string. -/
def mergeProduto (existing p : Produto) : Produto :=
  let q := existing.quantidade + p.quantidade
  let t := existing.valor_total + p.valor_total
  let u := if 0 < q then t / q else existing.valor_unitario
  let f := if containsList p.fonte.data existing.fonte.data then existing.fonte
           else existing.fonte ++ ", " ++ p.fonte
  { existing with quantidade := q, valor_total := t, valor_unitario := u, fonte := f }

/-- The insertion-ordered dict `consolidated` of `_consolidate_products`. -/
def AssocP : Type := List (String × Produto)

/-- Replace the (unique) entry carrying key `k` by its merge with `p`. -/
def updateFirstP : List (String × Produto) → String → Produto → List (String × Produto)
  | [], _, _ => []
  | e :: rest, k, p =>
    if e.1 = k then (e.1, mergeProduto e.2 p) :: rest
    else e :: updateFirstP rest k p

/-- The body of the loop of `_consolidate_products`: merge into the existing
entry when the key is present, otherwise append a fresh entry (Python dicts
preserve insertion order). -/
def insertP (acc : List (String × Produto)) (p : Produto) : List (String × Produto) :=
  let k := generateProductKey p
  if acc.any (fun e => e.1 = k) then updateFirstP acc k p
  else acc ++ [(k, p)]

/-- The full loop of `_consolidate_products` over the input list. -/
def consolidateAux (acc : List (String × Produto)) : List Produto → List (String × Produto)
  | [] => acc
  | p :: ps => consolidateAux (insertP acc p) ps

/-- Ordering used by the final `sorted(..., key=lambda x: x['descricao'])`. -/
def descLe (a b : Produto) : Prop := a.descricao ≤ b.descricao

instance : DecidableRel descLe := fun a b => by
  unfold descLe; infer_instance

instance : IsTotal Produto descLe := ⟨fun a b => le_total a.descricao b.descricao⟩

instance : IsTrans Produto descLe := ⟨fun _ _ _ h h' => le_trans h h'⟩

/-- `DocumentProcessor._consolidate_products`: fold the records into the
insertion-ordered dict, take its values, and sort them by description
(Python's `sorted` is a stable sort; insertion sort is stable, and a stable
sort is determined by the key function and the input order). -/
def consolidateProducts (ps : List Produto) : List Produto :=
  List.insertionSort descLe ((consolidateAux [] ps).map Prod.snd)

/-- A value arriving in a raw product dict from the model's JSON: a JSON
number (int or float), a JSON string, or anything else (null, list, ...). -/
inductive NumVal where
  | num (q : ℚ)
  | vstr (s : String)
  | other
deriving DecidableEq, Repr

/-- Characters removed by the first substitution of `_parse_numeric_value`,
`re.sub(r'[R$\s,.]', '', value)`. -/
def isCurrencyJunk (c : Char) : Bool :=
  c = 'R' || c = '$' || pyIsSpace c || c = ',' || c = '.'

/-- Numeric value of a (digits-only) character list, as `float()` reads it. -/
def digitsToNat : List Char → Nat
  | [] => 0
  | c :: cs => List.foldl (fun n d => 10 * n + (d.toNat - 48)) (c.toNat - 48) cs

/-- `DocumentProcessor._parse_numeric_value`: numbers pass through; strings
lose the characters of `[R$\s,.]`, then every remaining non-digit, and the
surviving digit string is read as a number of cents (divided by 100), with
the empty digit string read as `0.0`; anything else is `0.0`. -/
def parseNumericValue : NumVal → ℚ
  | .num q => q
  | .vstr s =>
    if ((s.data.filter (fun c => !(isCurrencyJunk c))).filter Char.isDigit).isEmpty
    then 0
    else (digitsToNat ((s.data.filter (fun c => !(isCurrencyJunk c))).filter Char.isDigit) : ℚ) / 100
  | .other => 0

/-- A raw product object out of the model's JSON, before normalization.
A missing `codigo`/`referencia`/`descricao` key (or a JSON null) is `none`;
a missing numeric key is what `dict.get(key, 0)` yields, i.e. `NumVal.num 0`. -/
structure RawProduct where
  codigo : Option String
  referencia : Option String
  descricao : Option String
  quantidade : NumVal
  valor_unitario : NumVal
  valor_total : NumVal
deriving DecidableEq, Repr

/-- `os.path.basename`: the part after the last slash. -/
def pathBasename (s : String) : String :=
  String.mk ((s.data.reverse.takeWhile (fun c => !(c = '/'))).reverse)

/-- `DocumentProcessor._normalize_product_data`: records with a blank
description are dropped; numeric fields are parsed; a zero total is derived
from positive quantity and unit price, else a zero unit price is derived
from positive quantity and total; the record is tagged with the base name
of its source file. -/
def normalizeProductData (raw : RawProduct) (sourceFile : String) : Option Produto :=
  let codigo := raw.codigo.getD ""
  let referencia := raw.referencia.getD ""
  let descricao := raw.descricao.getD ""
  if pyStrip descricao = "" then none
  else
    let quantidade := parseNumericValue raw.quantidade
    let vu := parseNumericValue raw.valor_unitario
    let vt := parseNumericValue raw.valor_total
    let valor_total :=
      if vt = 0 ∧ 0 < quantidade ∧ 0 < vu then quantidade * vu else vt
    let valor_unitario :=
      if ¬(vt = 0 ∧ 0 < quantidade ∧ 0 < vu) ∧ vu = 0 ∧ 0 < quantidade ∧ 0 < vt
      then vt / quantidade else vu
    some { codigo := pyStrip codigo, referencia := pyStrip referencia,
           descricao := pyStrip descricao, quantidade := quantidade,
           valor_unitario := valor_unitario, valor_total := valor_total,
           fonte := pathBasename sourceFile }

/-- What one input file contributed to `process_files`.  `failed` covers the
per-file exception handler and the empty-extracted-text branch (the external
text extractor and model calls live outside the core); `extracted` carries
the list of raw product objects parsed from the model's JSON for a file that
got through text extraction, the model call and JSON parsing (an unparsable
response contributes the empty list). -/
inductive FileOutcome where
  | failed (name error : String)
  | extracted (name : String) (raws : List RawProduct)
deriving DecidableEq, Repr

/-- The normalized products a file contributes to `all_products`. -/
def fileProducts : FileOutcome → List Produto
  | .failed _ _ => []
  | .extracted name raws => raws.filterMap (fun r => normalizeProductData r name)

/-- The entry a file contributes to `processing_info['failed_files']`. -/
def failedEntry : FileOutcome → Option (String × String)
  | .failed name err => some (pathBasename name, err)
  | .extracted _ _ => none

/-- Did the file reach the `processed_files += 1` line? -/
def isProcessed : FileOutcome → Bool
  | .failed _ _ => false
  | .extracted _ _ => true

/-- The dict returned by `DocumentProcessor.process_files`. -/
structure ProcessingReport where
  session_id : String
  total_files : Nat
  processed_files : Nat
  failed_files : List (String × String)
  extracted_products : Nat
  products : List Produto
  total_products : Nat
  total_value : ℚ
deriving DecidableEq, Repr

/-- `DocumentProcessor.process_files`: accumulate every file's normalized
products in order, record failures per file, consolidate, and return the
report dict.  There is no empty-result branch: a batch with zero extracted
products returns a report with an empty product list. -/
def processFiles (files : List FileOutcome) (sessionId : String) : ProcessingReport :=
  let allProducts := files.flatMap fileProducts
  let consolidated := consolidateProducts allProducts
  { session_id := sessionId
    total_files := files.length
    processed_files := (files.filter isProcessed).length
    failed_files := files.filterMap failedEntry
    extracted_products := allProducts.length
    products := consolidated
    total_products := consolidated.length
    total_value := (consolidated.map Produto.valor_total).sum }

/-- Left-to-right global substitution of `pat ++ \s*` by nothing: the effect
of `re.sub(pat + r'\s*', '', s)` for a literal nonempty `pat`.  Scanning
resumes right after each removed span, as `re.sub` does. -/
def subPatWsGo (pat : List Char) : Nat → List Char → List Char
  | _, [] => []
  | 0, cs => cs
  | fuel + 1, c :: rest =>
    if startsWithList pat (c :: rest) ∧ pat ≠ [] then
      subPatWsGo pat fuel (((c :: rest).drop pat.length).dropWhile pyIsSpace)
    else c :: subPatWsGo pat fuel rest

/-- `re.sub(pat + r'\s*', '', s)` for a literal nonempty `pat`; the fuel
argument of `subPatWsGo` only bounds the recursion depth (each step consumes
at least one character, so `cs.length` steps always suffice). -/
def subPatWs (pat : List Char) (cs : List Char) : List Char :=
  subPatWsGo pat cs.length cs

/-- The fence pattern of the first substitution. -/
def fenceJson : List Char := [btick, btick, btick, 'j', 's', 'o', 'n']

/-- The fence pattern of the second substitution. -/
def fenceBare : List Char := [btick, btick, btick]

/-- Both markdown-fence substitutions of `_clean_json_response`. -/
def stripFences (cs : List Char) : List Char :=
  subPatWs fenceBare (subPatWs fenceJson cs)

/-- `re.search(r'\{.*\}', s, re.DOTALL)`: the match, when it exists, runs
from the first left brace to the last right brace of the string (leftmost
start, then greedy), and exists exactly when some right brace occurs after
the first left brace. -/
def extractJsonSpan (cs : List Char) : Option (List Char) :=
  match cs with
  | [] => none
  | c :: rest =>
    if c = lbrace then
      match (rest.reverse.dropWhile (fun d => !(d = rbrace))) with
      | [] => extractJsonSpan rest
      | _ :: _ =>
        some (c :: (rest.reverse.dropWhile (fun d => !(d = rbrace))).reverse)
    else extractJsonSpan rest

/-- `DocumentProcessor._clean_json_response`: strip fences, then return the
brace span when the regex matches, else the fence-stripped text itself. -/
def cleanJsonResponse (s : String) : String :=
  let t := stripFences s.data
  match extractJsonSpan t with
  | some j => String.mk j
  | none => String.mk t

/-- The text contains a left brace with a right brace somewhere after it,
i.e. `re.search(r'\{.*\}', text, re.DOTALL)` succeeds. -/
def hasBracePair (cs : List Char) : Prop :=
  ∃ l₁ l₂ l₃, cs = l₁ ++ lbrace :: l₂ ++ rbrace :: l₃

/-! ## Helper lemmas -/

lemma isCurrencyJunk_eq_false_of_isDigit {c : Char} (h : c.isDigit = true) :
    isCurrencyJunk c = false := by
  rcases hc : isCurrencyJunk c
  · rfl
  · exfalso
    simp only [isCurrencyJunk, pyIsSpace, Bool.or_eq_true, decide_eq_true_eq] at hc
    casesm* _ ∨ _ <;> (subst_vars; exact absurd h (by decide))

lemma filter_digit_junk (l : List Char) :
    (l.filter (fun c => !(isCurrencyJunk c))).filter Char.isDigit
      = l.filter Char.isDigit := by
  induction l with
  | nil => rfl
  | cons c t ih =>
    rcases hd : c.isDigit with _ | _
    · rcases hj : isCurrencyJunk c <;>
        simp [List.filter_cons, hd, hj, ih]
    · have hj : isCurrencyJunk c = false := isCurrencyJunk_eq_false_of_isDigit hd
      simp [List.filter_cons, hd, hj, ih]

/-! ## C5: numeric parsing of strings -/

/-- **C5 counterexample.**  The claim says a plain integer string such as
`"5"` is parsed directly as a plain float (value `5`), with the division by
100 reserved for comma-decimal currency strings.  The code divides every
cleaned digit string by 100, so `"5"` parses to `1/20 = 0.05`, not `5`. -/
theorem parse_plain_integer_string_is_divided :
    parseNumericValue (NumVal.vstr "5") = 1 / 20 ∧
    parseNumericValue (NumVal.vstr "5") ≠ 5 := by
  have h : (("5".data.filter (fun c => !(isCurrencyJunk c))).filter Char.isDigit)
      = ['5'] := by decide
  have h5 : digitsToNat ['5'] = 5 := by decide
  constructor <;>
    · simp only [parseNumericValue, h, h5, List.isEmpty]
      norm_num

/-- **C5 amended.**  Numbers supplied directly as int/float are accepted
unchanged, and for every string the parser keeps exactly the digit
characters (the two regex substitutions together strip everything else) and
always divides their value by 100, regardless of the format of the source
string; any other value parses to 0. -/
theorem parse_numeric_value_spec :
    (∀ q : ℚ, parseNumericValue (NumVal.num q) = q) ∧
    (∀ s : String,
      parseNumericValue (NumVal.vstr s)
        = (digitsToNat (s.data.filter Char.isDigit) : ℚ) / 100) ∧
    parseNumericValue NumVal.other = 0 := by
  refine ⟨fun q => rfl, fun s => ?_, rfl⟩
  simp only [parseNumericValue, filter_digit_junk]
  rcases h : s.data.filter Char.isDigit with _ | ⟨c, t⟩
  · simp [digitsToNat]
  · simp [List.isEmpty]

/-! ## C6: the zero-quantity record -/

/-- **C6 counterexample.**  For the raw record
`quantidade=0, valor_unitario=0, valor_total=100, descricao="X"` the
normalizer indeed leaves the unit price 0 and the total 100, but
consolidation emits the record *unchanged*: its post-consolidation total is
100, not the 0 the claim predicts, because `_consolidate_products` only
touches prices when two records merge under one key. -/
theorem zero_quantity_post_consolidation_counterexample :
    normalizeProductData ⟨none, none, some "X", .num 0, .num 0, .num 100⟩ "f.pdf"
      = some ⟨"", "", "X", 0, 0, 100, "f.pdf"⟩ ∧
    consolidateProducts [⟨"", "", "X", 0, 0, 100, "f.pdf"⟩]
      = [⟨"", "", "X", 0, 0, 100, "f.pdf"⟩] ∧
    (⟨"", "", "X", 0, 0, 100, "f.pdf"⟩ : Produto).valor_total ≠ 0 := by
  refine ⟨?_, rfl, by norm_num⟩
  norm_num [normalizeProductData, parseNumericValue, pyStrip, pathBasename]
  decide

/-- **C6 amended.**  The normalizer's derivations are guarded to positive
quantity, so a record parsed with quantity 0 keeps its supplied unit price
and total (no division by zero is reachable); consolidation of a
single-record group emits the record unchanged, so the example record keeps
`total_price = 100` (and `unit_price = 0`) after consolidation — the total
is *not* recomputed to 0. -/
theorem zero_quantity_guard_spec :
    (∀ (raw : RawProduct) (f : String) (r : Produto),
       normalizeProductData raw f = some r →
       parseNumericValue raw.quantidade = 0 →
       r.valor_unitario = parseNumericValue raw.valor_unitario ∧
       r.valor_total = parseNumericValue raw.valor_total) ∧
    (∀ p : Produto, consolidateProducts [p] = [p]) ∧
    (normalizeProductData ⟨none, none, some "X", .num 0, .num 0, .num 100⟩ "f.pdf"
       = some ⟨"", "", "X", 0, 0, 100, "f.pdf"⟩ ∧
     consolidateProducts [⟨"", "", "X", 0, 0, 100, "f.pdf"⟩]
       = [⟨"", "", "X", 0, 0, 100, "f.pdf"⟩] ∧
     (⟨"", "", "X", 0, 0, 100, "f.pdf"⟩ : Produto).valor_unitario = 0 ∧
     (⟨"", "", "X", 0, 0, 100, "f.pdf"⟩ : Produto).valor_total = 100) := by
  refine ⟨?_, fun p => rfl, ?_, rfl, rfl, rfl⟩
  · intro raw f r h hq
    simp only [normalizeProductData, hq] at h
    norm_num at h
    obtain ⟨-, h⟩ := h
    subst h
    exact ⟨rfl, rfl⟩
  · norm_num [normalizeProductData, parseNumericValue, pyStrip, pathBasename]
    decide

/-- Witness for `zero_quantity_guard_spec` at the example record. -/
theorem zero_quantity_guard_spec_witness :
    (⟨"", "", "X", 0, 0, 100, "f.pdf"⟩ : Produto).valor_unitario
        = parseNumericValue (NumVal.num 0) ∧
    (⟨"", "", "X", 0, 0, 100, "f.pdf"⟩ : Produto).valor_total
        = parseNumericValue (NumVal.num 100) :=
  zero_quantity_guard_spec.1 ⟨none, none, some "X", .num 0, .num 0, .num 100⟩
    "f.pdf" ⟨"", "", "X", 0, 0, 100, "f.pdf"⟩
    (by norm_num [normalizeProductData, parseNumericValue, pyStrip, pathBasename]; decide)
    rfl

/-! ## C3: a batch that extracts nothing -/

/-- **C3 counterexample.**  A batch whose single file fails text extraction:
`process_files` returns the ordinary report dict with an empty product
list, zero totals and the failure recorded per file — there is no
batch-level "no valid data extracted" signal anywhere in the function. -/
theorem empty_batch_returns_report_counterexample :
    processFiles [.failed "a.pdf" "Texto nao encontrado no arquivo"] "s"
      = ⟨"s", 1, 0, [("a.pdf", "Texto nao encontrado no arquivo")], 0, [], 0, 0⟩ := by
  decide

/-- **C3 amended.**  When zero products are extracted from all files (in
particular when every file fails extraction), `process_files` still returns
a successful report whose product list is empty and whose totals are zero,
with the per-file failures recorded in `failed_files`; it does not raise a
batch-level failure, so callers cannot distinguish "nothing found" from
"ran successfully with zero results".  A single file's failure never fails
the whole run: dropping a failed file from the batch leaves the product
list unchanged. -/
theorem empty_batch_returns_report_spec :
    (∀ (files : List FileOutcome) (sid : String),
       files.flatMap fileProducts = [] →
       (processFiles files sid).products = [] ∧
       (processFiles files sid).total_products = 0 ∧
       (processFiles files sid).total_value = 0) ∧
    (∀ (pre post : List FileOutcome) (n e sid : String),
       (processFiles (pre ++ FileOutcome.failed n e :: post) sid).products
         = (processFiles (pre ++ post) sid).products) := by
  constructor
  · intro files sid h
    simp only [processFiles, h]
    exact ⟨rfl, rfl, rfl⟩
  · intro pre post n e sid
    simp only [processFiles, List.flatMap_append, List.flatMap_cons, fileProducts,
      List.nil_append]

/-- Witness for `empty_batch_returns_report_spec` on a concrete batch of two
failed files. -/
theorem empty_batch_returns_report_spec_witness :
    (processFiles [.failed "a.pdf" "x", .failed "b.pdf" "y"] "s").products = [] ∧
    (processFiles [.failed "a.pdf" "x", .failed "b.pdf" "y"] "s").total_products = 0 ∧
    (processFiles [.failed "a.pdf" "x", .failed "b.pdf" "y"] "s").total_value = 0 :=
  empty_batch_returns_report_spec.1 [.failed "a.pdf" "x", .failed "b.pdf" "y"] "s"
    (by decide)

/-! ## C2: the merge rule -/

/-- **C2 counterexample.**  Merging two records with key `codigo_P001`,
quantity 1, unit price 2 and (inconsistent) supplied total 10 each: the code
emits quantity 2, total 20 (the *sum* of the supplied totals) and unit
price 10 (*re-averaged* as total/quantity).  The claim instead predicts the
representative unit price 2 kept and the total recomputed as
`quantity * unit_price = 4`. -/
theorem merge_rule_counterexample :
    consolidateProducts
        [⟨"P001", "", "D", 1, 2, 10, "f1.pdf"⟩, ⟨"P001", "", "D", 1, 2, 10, "f2.pdf"⟩]
      = [⟨"P001", "", "D", 2, 10, 20, "f1.pdf, f2.pdf"⟩] ∧
    (10 : ℚ) ≠ 2 ∧ (20 : ℚ) ≠ 2 * 2 := by
  refine ⟨?_, by norm_num, by norm_num⟩
  norm_num [consolidateProducts, consolidateAux, insertP, updateFirstP,
    generateProductKey, mergeProduto, containsList, startsWithList,
    List.insertionSort, List.orderedInsert]
  decide

/-- **C2 amended.**  For two records sharing a consolidation key the merged
record has `quantity` the sum of the quantities, `total_price` the *sum* of
the two supplied totals, `unit_price` *re-averaged* as the merged total
divided by the merged quantity whenever the merged quantity is positive
(otherwise the first record's unit price is kept), and `source` the first
record's source with the second file name appended, comma separated, unless
it already occurs as a substring.  On the scenario records (whose totals
were derived by normalization, hence consistent) this yields
`quantity = 150`, `unit_price = 0.50`, `total_price = 75` with both file
names in `source`. -/
theorem merge_rule_spec :
    (∀ A B : Produto, generateProductKey A = generateProductKey B →
      consolidateProducts [A, B] = [mergeProduto A B] ∧
      (mergeProduto A B).quantidade = A.quantidade + B.quantidade ∧
      (mergeProduto A B).valor_total = A.valor_total + B.valor_total ∧
      (0 < A.quantidade + B.quantidade →
        (mergeProduto A B).valor_unitario
          = (A.valor_total + B.valor_total) / (A.quantidade + B.quantidade)) ∧
      (¬ 0 < A.quantidade + B.quantidade →
        (mergeProduto A B).valor_unitario = A.valor_unitario) ∧
      (containsList B.fonte.data A.fonte.data = false →
        (mergeProduto A B).fonte = A.fonte ++ ", " ++ B.fonte)) ∧
    (normalizeProductData ⟨some "P001", none, some "Produto X", .num 100, .num (1/2), .num 0⟩
        "file1.pdf" = some ⟨"P001", "", "Produto X", 100, 1/2, 50, "file1.pdf"⟩ ∧
     normalizeProductData ⟨some "P001", none, some "Produto X", .num 50, .num (1/2), .num 0⟩
        "file2.pdf" = some ⟨"P001", "", "Produto X", 50, 1/2, 25, "file2.pdf"⟩ ∧
     consolidateProducts
        [⟨"P001", "", "Produto X", 100, 1/2, 50, "file1.pdf"⟩,
         ⟨"P001", "", "Produto X", 50, 1/2, 25, "file2.pdf"⟩]
      = [⟨"P001", "", "Produto X", 150, 1/2, 75, "file1.pdf, file2.pdf"⟩]) := by
  constructor
  · intro A B h
    refine ⟨?_, rfl, rfl, ?_, ?_, ?_⟩
    · simp [consolidateProducts, consolidateAux, insertP, updateFirstP, h,
        List.insertionSort, List.orderedInsert]
    · intro hq
      simp [mergeProduto, if_pos hq]
    · intro hq
      simp [mergeProduto, if_neg hq]
    · intro hf
      simp [mergeProduto, hf]
  · refine ⟨?_, ?_, ?_⟩
    · norm_num [normalizeProductData, parseNumericValue, pyStrip, pathBasename]
      decide
    · norm_num [normalizeProductData, parseNumericValue, pyStrip, pathBasename]
      decide
    · norm_num [consolidateProducts, consolidateAux, insertP, updateFirstP,
        generateProductKey, mergeProduto, containsList, startsWithList,
        List.insertionSort, List.orderedInsert]
      decide

/-- Witness for `merge_rule_spec` at the scenario records. -/
theorem merge_rule_spec_witness :
    consolidateProducts
        [⟨"P001", "", "Produto X", 100, 1/2, 50, "file1.pdf"⟩,
         ⟨"P001", "", "Produto X", 50, 1/2, 25, "file2.pdf"⟩]
      = [mergeProduto ⟨"P001", "", "Produto X", 100, 1/2, 50, "file1.pdf"⟩
           ⟨"P001", "", "Produto X", 50, 1/2, 25, "file2.pdf"⟩] :=
  (merge_rule_spec.1 ⟨"P001", "", "Produto X", 100, 1/2, 50, "file1.pdf"⟩
    ⟨"P001", "", "Produto X", 50, 1/2, 25, "file2.pdf"⟩ (by decide)).1

/-! ## C7: the consolidation key -/

lemma consolidate_pair_eq {p q : Produto}
    (h : generateProductKey p = generateProductKey q) :
    consolidateProducts [p, q] = [mergeProduto p q] := by
  simp [consolidateProducts, consolidateAux, insertP, updateFirstP, h,
    List.insertionSort, List.orderedInsert]

lemma consolidate_pair_ne {p q : Produto}
    (h : generateProductKey p ≠ generateProductKey q) :
    consolidateProducts [p, q] = List.insertionSort descLe [p, q] := by
  simp [consolidateProducts, consolidateAux, insertP, updateFirstP, h]

/-- **C7.**  The consolidation key is derived with strict priority — the
codigo when non-empty, else the referencia when non-empty, else the
lower-cased description with punctuation stripped and whitespace
collapsed — and two records collapse into one consolidated product exactly
when their derived keys are equal (they stay two products exactly when the
keys differ). -/
theorem consolidation_key_spec :
    (∀ p : Produto,
      (p.codigo ≠ "" → generateProductKey p = "codigo_" ++ p.codigo) ∧
      (p.codigo = "" → p.referencia ≠ "" →
        generateProductKey p = "ref_" ++ p.referencia) ∧
      (p.codigo = "" → p.referencia = "" →
        generateProductKey p = "desc_" ++ normalizeDescricao p.descricao)) ∧
    (∀ p q : Produto,
      ((consolidateProducts [p, q]).length = 1 ↔
        generateProductKey p = generateProductKey q) ∧
      ((consolidateProducts [p, q]).length = 2 ↔
        generateProductKey p ≠ generateProductKey q)) := by
  constructor
  · intro p
    refine ⟨fun h => ?_, fun h h' => ?_, fun h h' => ?_⟩ <;>
      simp_all [generateProductKey]
  · intro p q
    by_cases h : generateProductKey p = generateProductKey q
    · rw [consolidate_pair_eq h]
      simp [h]
    · rw [consolidate_pair_ne h]
      have hl : (List.insertionSort descLe [p, q]).length = 2 := by
        rw [List.length_insertionSort]; rfl
      exact ⟨⟨fun h1 => absurd (hl.symm.trans h1) (by norm_num),
              fun h2 => absurd h2 h⟩,
             ⟨fun _ => h, fun _ => hl⟩⟩

/-- Witness for `consolidation_key_spec`: two records with the same codigo
merge into one; the key of a record with a codigo starts with `codigo_`. -/
theorem consolidation_key_spec_witness :
    (consolidateProducts
        [⟨"A", "", "X", 1, 1, 1, "f"⟩, ⟨"A", "R2", "Y", 2, 2, 2, "g"⟩]).length = 1 ∧
    generateProductKey ⟨"A", "", "X", 1, 1, 1, "f"⟩ = "codigo_" ++ "A" :=
  ⟨((consolidation_key_spec.2 ⟨"A", "", "X", 1, 1, 1, "f"⟩
      ⟨"A", "R2", "Y", 2, 2, 2, "g"⟩).1).mpr (by decide),
   (consolidation_key_spec.1 ⟨"A", "", "X", 1, 1, 1, "f"⟩).1 (by decide)⟩

/-! ## C4: response sanitation -/

lemma head_of_dropWhile_false {p : Char → Bool} {d : Char} {ds : List Char} :
    ∀ {l : List Char}, l.dropWhile p = d :: ds → p d = false := by
  intro l h
  induction l with
  | nil => simp at h
  | cons a t ih =>
    rw [List.dropWhile_cons] at h
    split_ifs at h with hp
    · exact ih h
    · injection h with h1 h2
      subst h1
      simpa using hp

lemma extractJsonSpan_none {cs : List Char} (h : extractJsonSpan cs = none) :
    ¬ hasBracePair cs := by
  induction cs with
  | nil =>
    rintro ⟨l1, l2, l3, heq⟩
    have hlen := congrArg List.length heq
    simp only [List.length_nil, List.length_append, List.length_cons] at hlen
    omega
  | cons c rest ih =>
    simp only [extractJsonSpan] at h
    by_cases hc : c = lbrace
    · rw [if_pos hc] at h
      rcases hrev : rest.reverse.dropWhile (fun d => !(d = rbrace)) with _ | ⟨d, ds⟩
      · have hnorb : rbrace ∉ rest := by
          have hall := List.dropWhile_eq_nil_iff.mp hrev
          intro hmem
          have := hall rbrace (List.mem_reverse.mpr hmem)
          simp at this
        rintro ⟨l1, l2, l3, heq⟩
        rcases l1 with _ | ⟨a, t⟩
        · rw [List.nil_append] at heq
          injection heq with h1 h2
          exact hnorb (h2 ▸ List.mem_append_right _ (List.mem_cons_self _ _))
        · rw [List.cons_append] at heq
          injection heq with h1 h2
          refine hnorb ?_
          rw [h2]
          simp [List.mem_append]
      · rw [hrev] at h
        exact Option.noConfusion h
    · rw [if_neg hc] at h
      rintro ⟨l1, l2, l3, heq⟩
      rcases l1 with _ | ⟨a, t⟩
      · rw [List.nil_append] at heq
        injection heq with h1 h2
        exact hc h1
      · rw [List.cons_append] at heq
        injection heq with h1 h2
        exact ih h ⟨t, l2, l3, h2⟩

lemma extractJsonSpan_some {cs j : List Char} (h : extractJsonSpan cs = some j) :
    ∃ pre mid post, cs = pre ++ (lbrace :: (mid ++ [rbrace])) ++ post ∧
      lbrace ∉ pre ∧ rbrace ∉ post ∧ j = lbrace :: (mid ++ [rbrace]) := by
  induction cs with
  | nil => exact Option.noConfusion h
  | cons c rest ih =>
    simp only [extractJsonSpan] at h
    by_cases hc : c = lbrace
    · rw [if_pos hc] at h
      subst hc
      rcases hrev : rest.reverse.dropWhile (fun d => !(d = rbrace)) with _ | ⟨d, ds⟩
      · rw [hrev] at h
        obtain ⟨pre, mid, post, heq, -, -, -⟩ := ih h
        have hall := List.dropWhile_eq_nil_iff.mp hrev
        have hmem : rbrace ∈ rest := by
          rw [heq]
          simp [List.mem_append]
        have := hall rbrace (List.mem_reverse.mpr hmem)
        simp at this
      · rw [hrev] at h
        have hd : d = rbrace := by
          have := head_of_dropWhile_false hrev
          simpa using this
        subst hd
        have hsplit : rest.reverse
            = rest.reverse.takeWhile (fun d => !(d = rbrace)) ++ (rbrace :: ds) := by
          rw [← hrev, List.takeWhile_append_dropWhile]
        have hrest : rest = ds.reverse ++ [rbrace]
            ++ (rest.reverse.takeWhile (fun d => !(d = rbrace))).reverse := by
          have h2 := congrArg List.reverse hsplit
          simpa [List.reverse_append] using h2
        refine ⟨[], ds.reverse,
          (rest.reverse.takeWhile (fun d => !(d = rbrace))).reverse, ?_, ?_, ?_, ?_⟩
        · rw [List.nil_append, List.cons_append]
          exact congrArg (fun l => lbrace :: l) hrest
        · simp
        · intro hmem
          have := List.mem_takeWhile_imp (List.mem_reverse.mp hmem)
          simp at this
        · injection h with h
          rw [← h]
          simp
    · rw [if_neg hc] at h
      obtain ⟨pre, mid, post, heq, hpre, hpost, hj⟩ := ih h
      refine ⟨c :: pre, mid, post, ?_, ?_, hpost, hj⟩
      · simp [heq, List.cons_append, List.append_assoc]
      · intro hmem
        rcases List.mem_cons.mp hmem with h1 | h1
        · exact hc h1.symm
        · exact hpre h1

/-- **C4 counterexample.**  On HTML error-page content with no braces,
`_clean_json_response` returns the input text itself, not the canonical
empty-result sentinel the claim requires. -/
theorem clean_json_no_sentinel_counterexample :
    cleanJsonResponse "<html>Error: You exceeded your current quota</html>"
      = "<html>Error: You exceeded your current quota</html>" ∧
    cleanJsonResponse "<html>Error: You exceeded your current quota</html>"
      ≠ "\x7b\"produtos\": []\x7d" := by
  constructor <;> decide

/-- **C4 amended.**  The sanitizer strips markdown code-fence markers and
then searches for a `{...}` span: when one exists it returns the substring
running from the *first* left brace to the *last* right brace (greedy, so
possibly spanning several objects), and when the stripped text contains no
left brace followed by a right brace it returns the fence-stripped text
itself unchanged — it never substitutes the empty-result sentinel; error
content simply flows through and later fails JSON parsing, which yields
zero products for that file. -/
theorem clean_json_spec (s : String) :
    (¬ hasBracePair (stripFences s.data) →
      cleanJsonResponse s = String.mk (stripFences s.data)) ∧
    (hasBracePair (stripFences s.data) →
      ∃ pre mid post,
        stripFences s.data = pre ++ (lbrace :: (mid ++ [rbrace])) ++ post ∧
        lbrace ∉ pre ∧ rbrace ∉ post ∧
        cleanJsonResponse s = String.mk (lbrace :: (mid ++ [rbrace]))) := by
  constructor
  · intro hno
    rcases hE : extractJsonSpan (stripFences s.data) with _ | j
    · simp [cleanJsonResponse, hE]
    · obtain ⟨pre, mid, post, heq, -, -, -⟩ := extractJsonSpan_some hE
      exact absurd ⟨pre, mid, post, by rw [heq]; simp [List.append_assoc]⟩ hno
  · intro hyes
    rcases hE : extractJsonSpan (stripFences s.data) with _ | j
    · exact absurd hyes (extractJsonSpan_none hE)
    · obtain ⟨pre, mid, post, heq, hpre, hpost, hj⟩ := extractJsonSpan_some hE
      refine ⟨pre, mid, post, heq, hpre, hpost, ?_⟩
      simp [cleanJsonResponse, hE, hj]

/-- Witness for `clean_json_spec`: a brace-free error text flows through
unchanged, and a braced text is cut to its brace span. -/
theorem clean_json_spec_witness :
    cleanJsonResponse "quota exceeded" = String.mk (stripFences "quota exceeded".data) :=
  (clean_json_spec "quota exceeded").1 (extractJsonSpan_none (by decide))

/-! ## Machinery about `_consolidate_products` -/

lemma codigo_merge (e p : Produto) : (mergeProduto e p).codigo = e.codigo := rfl

lemma referencia_merge (e p : Produto) : (mergeProduto e p).referencia = e.referencia := rfl

lemma descricao_merge (e p : Produto) : (mergeProduto e p).descricao = e.descricao := rfl

lemma generateProductKey_merge (e p : Produto) :
    generateProductKey (mergeProduto e p) = generateProductKey e := rfl

lemma foldl_merge_codigo (l : List Produto) :
    ∀ e : Produto, (List.foldl mergeProduto e l).codigo = e.codigo := by
  induction l with
  | nil => intro e; rfl
  | cons x t ih => intro e; rw [List.foldl_cons, ih, codigo_merge]

lemma foldl_merge_referencia (l : List Produto) :
    ∀ e : Produto, (List.foldl mergeProduto e l).referencia = e.referencia := by
  induction l with
  | nil => intro e; rfl
  | cons x t ih => intro e; rw [List.foldl_cons, ih, referencia_merge]

lemma foldl_merge_descricao (l : List Produto) :
    ∀ e : Produto, (List.foldl mergeProduto e l).descricao = e.descricao := by
  induction l with
  | nil => intro e; rfl
  | cons x t ih => intro e; rw [List.foldl_cons, ih, descricao_merge]

lemma foldl_merge_key (l : List Produto) (e : Produto) :
    generateProductKey (List.foldl mergeProduto e l) = generateProductKey e := by
  unfold generateProductKey
  rw [foldl_merge_codigo, foldl_merge_referencia, foldl_merge_descricao]

lemma updateFirstP_keys (acc : List (String × Produto)) (k : String) (p : Produto) :
    (updateFirstP acc k p).map Prod.fst = acc.map Prod.fst := by
  induction acc with
  | nil => rfl
  | cons e rest ih =>
    rw [updateFirstP]
    split_ifs with h
    · simp
    · simp [ih]

lemma updateFirstP_append_notin {l₁ : List (String × Produto)} {k : String}
    (hk : k ∉ l₁.map Prod.fst) (e : Produto) (l₂ : List (String × Produto)) (p : Produto) :
    updateFirstP (l₁ ++ (k, e) :: l₂) k p = l₁ ++ (k, mergeProduto e p) :: l₂ := by
  induction l₁ with
  | nil => simp [updateFirstP]
  | cons a t ih =>
    have hne : a.1 ≠ k := by
      intro h
      exact hk (by simp [h])
    have hk' : k ∉ t.map Prod.fst := fun h => hk (by simp [h])
    simp only [List.cons_append, updateFirstP, if_neg hne, List.append_eq]
    rw [ih hk']

lemma insertP_of_mem {acc : List (String × Produto)} {p : Produto}
    (h : generateProductKey p ∈ acc.map Prod.fst) :
    insertP acc p = updateFirstP acc (generateProductKey p) p := by
  have hany : acc.any (fun e => e.1 = generateProductKey p) = true := by
    rw [List.any_eq_true]
    obtain ⟨e, he, hk⟩ := List.mem_map.mp h
    exact ⟨e, he, by simp [hk]⟩
  simp [insertP, hany]

lemma insertP_of_not_mem {acc : List (String × Produto)} {p : Produto}
    (h : generateProductKey p ∉ acc.map Prod.fst) :
    insertP acc p = acc ++ [(generateProductKey p, p)] := by
  have hany : acc.any (fun e => e.1 = generateProductKey p) = false := by
    rw [List.any_eq_false]
    intro e he
    simp only [decide_eq_true_eq]
    intro hk
    exact h (List.mem_map.mpr ⟨e, he, hk⟩)
  simp [insertP, hany]

lemma exists_split_of_mem_keys {acc : List (String × Produto)} {k : String}
    (h : k ∈ acc.map Prod.fst) :
    ∃ l₁ e l₂, acc = l₁ ++ (k, e) :: l₂ ∧ k ∉ l₁.map Prod.fst := by
  induction acc with
  | nil => simp at h
  | cons a t ih =>
    by_cases ha : a.1 = k
    · exact ⟨[], a.2, t, by rw [← ha]; simp, by simp⟩
    · have h' : k ∈ t.map Prod.fst := by
        rcases List.mem_map.mp h with ⟨e, he, hk⟩
        rcases List.mem_cons.mp he with h1 | h1
        · exact absurd (h1 ▸ hk) ha
        · exact List.mem_map.mpr ⟨e, h1, hk⟩
      obtain ⟨l₁, e, l₂, heq, hnk⟩ := ih h'
      refine ⟨a :: l₁, e, l₂, by rw [heq]; rfl, ?_⟩
      intro hmem
      rw [List.map_cons] at hmem
      rcases List.mem_cons.mp hmem with h1 | h1
      · exact ha h1.symm
      · exact hnk h1

lemma updateFirstP_entry_keys {acc : List (String × Produto)} {k : String} {p : Produto}
    (h : ∀ e ∈ acc, generateProductKey e.2 = e.1) :
    ∀ e ∈ updateFirstP acc k p, generateProductKey e.2 = e.1 := by
  induction acc with
  | nil => simp [updateFirstP]
  | cons a t ih =>
    rw [updateFirstP]
    split_ifs with ha
    · intro e he
      rcases List.mem_cons.mp he with h1 | h1
      · rw [h1]
        exact h a (List.mem_cons_self a t)
      · exact h e (List.mem_cons.mpr (Or.inr h1))
    · intro e he
      rcases List.mem_cons.mp he with h1 | h1
      · rw [h1]
        exact h a (List.mem_cons_self a t)
      · exact ih (fun e' he' => h e' (List.mem_cons.mpr (Or.inr he'))) e h1

lemma insertP_entry_keys {acc : List (String × Produto)} {p : Produto}
    (h : ∀ e ∈ acc, generateProductKey e.2 = e.1) :
    ∀ e ∈ insertP acc p, generateProductKey e.2 = e.1 := by
  by_cases hm : generateProductKey p ∈ acc.map Prod.fst
  · rw [insertP_of_mem hm]
    exact updateFirstP_entry_keys h
  · rw [insertP_of_not_mem hm]
    intro e he
    rcases List.mem_append.mp he with h1 | h1
    · exact h e h1
    · have h2 := List.mem_singleton.mp h1
      subst h2
      rfl

lemma insertP_keys_nodup {acc : List (String × Produto)} {p : Produto}
    (hnd : (acc.map Prod.fst).Nodup) :
    ((insertP acc p).map Prod.fst).Nodup := by
  by_cases hm : generateProductKey p ∈ acc.map Prod.fst
  · rw [insertP_of_mem hm, updateFirstP_keys]
    exact hnd
  · rw [insertP_of_not_mem hm, List.map_append]
    refine List.Nodup.append hnd (List.nodup_singleton _) ?_
    intro x hx hx'
    rcases List.mem_singleton.mp (by simpa using hx') with rfl
    exact hm hx

lemma mem_keys_insertP (acc : List (String × Produto)) (p : Produto) :
    generateProductKey p ∈ (insertP acc p).map Prod.fst := by
  by_cases hm : generateProductKey p ∈ acc.map Prod.fst
  · rw [insertP_of_mem hm, updateFirstP_keys]
    exact hm
  · rw [insertP_of_not_mem hm, List.map_append]
    simp

lemma keys_subset_insertP (acc : List (String × Produto)) (p : Produto) :
    ∀ k ∈ acc.map Prod.fst, k ∈ (insertP acc p).map Prod.fst := by
  intro k hk
  by_cases hm : generateProductKey p ∈ acc.map Prod.fst
  · rw [insertP_of_mem hm, updateFirstP_keys]
    exact hk
  · rw [insertP_of_not_mem hm, List.map_append]
    exact List.mem_append_left _ hk

/-- Every value in the dict built by the loop of `_consolidate_products` is
the left fold of `mergeProduto` over the input records sharing its key:
either the fold was seeded by a record already in the accumulator, or the
key is new and the fold runs over the nonempty filtered group, seeded by its
first record. -/
lemma consolidateAux_mem_spec :
    ∀ (ps : List Produto) (acc : List (String × Produto)),
      (∀ e ∈ acc, generateProductKey e.2 = e.1) →
      (acc.map Prod.fst).Nodup →
      ∀ r ∈ (consolidateAux acc ps).map Prod.snd,
        (∃ e ∈ acc.map Prod.snd,
           generateProductKey e = generateProductKey r ∧
           r = List.foldl mergeProduto e
                 (ps.filter (fun x => generateProductKey x = generateProductKey e))) ∨
        (generateProductKey r ∉ acc.map Prod.fst ∧
         ∃ q rest,
           ps.filter (fun x => generateProductKey x = generateProductKey r) = q :: rest ∧
           r = List.foldl mergeProduto q rest) := by
  intro ps
  induction ps with
  | nil =>
    intro acc hek hnd r hr
    exact Or.inl ⟨r, hr, rfl, rfl⟩
  | cons p ps ih =>
    intro acc hek hnd r hr
    have hstep : consolidateAux acc (p :: ps) = consolidateAux (insertP acc p) ps := rfl
    rw [hstep] at hr
    have hek' := insertP_entry_keys (p := p) hek
    have hnd' := insertP_keys_nodup (p := p) hnd
    rcases ih (insertP acc p) hek' hnd' r hr with ⟨e, he, hke, hfe⟩ | ⟨hnk, q, rest, hfil, hfold⟩
    · -- the fold was seeded inside `insertP acc p`
      by_cases hm : generateProductKey p ∈ acc.map Prod.fst
      · obtain ⟨l₁, e0, l₂, hacc, hl₁⟩ := exists_split_of_mem_keys hm
        have hupd : insertP acc p
            = l₁ ++ (generateProductKey p, mergeProduto e0 p) :: l₂ := by
          rw [insertP_of_mem hm, hacc, updateFirstP_append_notin hl₁]
        have he0mem : (generateProductKey p, e0) ∈ acc := by
          rw [hacc]
          exact List.mem_append_right _ (List.mem_cons_self _ _)
        have hke0 : generateProductKey e0 = generateProductKey p := hek _ he0mem
        have hndsplit : generateProductKey p ∉ l₁.map Prod.fst ∧
            generateProductKey p ∉ l₂.map Prod.fst := by
          have := hnd
          rw [hacc, List.map_append, List.map_cons] at this
          have h2 := List.nodup_append.mp this
          refine ⟨hl₁, ?_⟩
          exact (List.nodup_cons.mp h2.2.1).1
        rw [hupd, List.map_append, List.map_cons] at he
        rcases List.mem_append.mp he with h1 | h1
        · -- e sits in l₁ : untouched by the update
          obtain ⟨pr, hpr, hsnd⟩ := List.mem_map.mp h1
          have hprkey : generateProductKey e = pr.1 := by
            rw [← hsnd]
            exact hek pr (by rw [hacc]; exact List.mem_append_left _ hpr)
          have hnep : ¬(generateProductKey p = generateProductKey e) := by
            intro hcontra
            exact hndsplit.1 (by
              rw [hcontra, hprkey]
              exact List.mem_map.mpr ⟨pr, hpr, rfl⟩)
          refine Or.inl ⟨e, ?_, hke, ?_⟩
          · rw [hacc, List.map_append]
            exact List.mem_append_left _ h1
          · rw [List.filter_cons, if_neg (by simpa using hnep)]
            exact hfe
        · rcases List.mem_cons.mp h1 with h2 | h2
          · -- e is the freshly merged entry
            have hkee0 : generateProductKey e = generateProductKey e0 := by
              rw [h2, generateProductKey_merge]
            refine Or.inl ⟨e0, ?_, ?_, ?_⟩
            · rw [hacc, List.map_append, List.map_cons]
              exact List.mem_append_right _ (List.mem_cons_self _ _)
            · rw [← hkee0, hke]
            · rw [List.filter_cons, if_pos (by simp [hke0])]
              rw [List.foldl_cons]
              rw [hkee0] at hfe
              rw [hfe, h2]
          · -- e sits in l₂ : untouched by the update
            obtain ⟨pr, hpr, hsnd⟩ := List.mem_map.mp h2
            have hprkey : generateProductKey e = pr.1 := by
              rw [← hsnd]
              exact hek pr (by
                rw [hacc]
                exact List.mem_append_right _ (List.mem_cons.mpr (Or.inr hpr)))
            have hnep : ¬(generateProductKey p = generateProductKey e) := by
              intro hcontra
              exact hndsplit.2 (by
                rw [hcontra, hprkey]
                exact List.mem_map.mpr ⟨pr, hpr, rfl⟩)
            refine Or.inl ⟨e, ?_, hke, ?_⟩
            · rw [hacc, List.map_append, List.map_cons]
              exact List.mem_append_right _ (List.mem_cons.mpr (Or.inr h2))
            · rw [List.filter_cons, if_neg (by simpa using hnep)]
              exact hfe
      · -- the key of p is new : insertP appended the entry (key p, p)
        have happ : insertP acc p = acc ++ [(generateProductKey p, p)] :=
          insertP_of_not_mem hm
        rw [happ, List.map_append] at he
        rcases List.mem_append.mp he with h1 | h1
        · -- e was already in acc
          obtain ⟨pr, hpr, hsnd⟩ := List.mem_map.mp h1
          have hprkey : generateProductKey e = pr.1 := by
            rw [← hsnd]
            exact hek pr hpr
          have hnep : ¬(generateProductKey p = generateProductKey e) := by
            intro hcontra
            exact hm (by
              rw [hcontra, hprkey]
              exact List.mem_map.mpr ⟨pr, hpr, rfl⟩)
          refine Or.inl ⟨e, h1, hke, ?_⟩
          rw [List.filter_cons, if_neg (by simpa using hnep)]
          exact hfe
        · -- e is the newly appended record p itself
          have h2 : e = p := by simpa using h1
          subst h2
          refine Or.inr ⟨?_, e, ps.filter (fun x => generateProductKey x = generateProductKey r), ?_, ?_⟩
          · rw [← hke]
            exact hm
          · rw [List.filter_cons, if_pos (by simpa using hke)]
          · rw [← hke]
            exact hfe
    · -- the key of r never occurred in `insertP acc p`
      have hrp : generateProductKey r ≠ generateProductKey p := by
        intro hcontra
        exact hnk (hcontra ▸ mem_keys_insertP acc p)
      have hra : generateProductKey r ∉ acc.map Prod.fst := by
        intro hcontra
        exact hnk (keys_subset_insertP acc p _ hcontra)
      refine Or.inr ⟨hra, q, rest, ?_, hfold⟩
      rw [List.filter_cons, if_neg (by simpa using fun h => hrp h.symm)]
      exact hfil

/-- Every record emitted by `_consolidate_products` is the left fold of
`mergeProduto` over the (nonempty) group of input records sharing its key,
seeded by the group's first record in input order. -/
lemma mem_consolidate_fold {ps : List Produto} {r : Produto}
    (h : r ∈ consolidateProducts ps) :
    ∃ p rest,
      ps.filter (fun x => generateProductKey x = generateProductKey r) = p :: rest ∧
      r = List.foldl mergeProduto p rest := by
  have h' : r ∈ (consolidateAux [] ps).map Prod.snd := by
    rw [consolidateProducts] at h
    exact (List.mem_insertionSort descLe).mp h
  rcases consolidateAux_mem_spec ps [] (by simp) (by simp) r h' with
    ⟨e, he, -, -⟩ | ⟨-, p, rest, hfil, hfold⟩
  · simp at he
  · exact ⟨p, rest, hfil, hfold⟩

/-- A merge step with positive resulting quantity establishes
`total = quantity * unit_price` (because the unit price is recomputed as
total over quantity in that very step). -/
lemma merge_total_eq (m x : Produto) (h : 0 < (mergeProduto m x).quantidade) :
    (mergeProduto m x).valor_total
      = (mergeProduto m x).quantidade * (mergeProduto m x).valor_unitario := by
  have hq : 0 < m.quantidade + x.quantidade := h
  show m.valor_total + x.valor_total
      = (m.quantidade + x.quantidade) *
        (if 0 < m.quantidade + x.quantidade
         then (m.valor_total + x.valor_total) / (m.quantidade + x.quantidade)
         else m.valor_unitario)
  rw [if_pos hq, mul_comm, div_mul_cancel₀]
  exact ne_of_gt hq

/-! ## C1: the post-consolidation price invariant -/

/-- **C1 counterexample.**  The normalized record
`{codigo:"K9", descricao:"Inconsistent", quantidade:0, valor_unitario:0,
valor_total:50}` is a legal normalizer output (the derivations are guarded
to positive quantity), consolidation emits it unchanged, and it violates
`total_price == quantity * unit_price` after consolidation: `50 ≠ 0 * 0`. -/
theorem consolidated_total_counterexample :
    normalizeProductData ⟨some "K9", none, some "Inconsistent", .num 0, .num 0, .num 50⟩
        "g.pdf" = some ⟨"K9", "", "Inconsistent", 0, 0, 50, "g.pdf"⟩ ∧
    consolidateProducts [⟨"K9", "", "Inconsistent", 0, 0, 50, "g.pdf"⟩]
      = [⟨"K9", "", "Inconsistent", 0, 0, 50, "g.pdf"⟩] ∧
    ¬((⟨"K9", "", "Inconsistent", 0, 0, 50, "g.pdf"⟩ : Produto).valor_total
        = (⟨"K9", "", "Inconsistent", 0, 0, 50, "g.pdf"⟩ : Produto).quantidade
          * (⟨"K9", "", "Inconsistent", 0, 0, 50, "g.pdf"⟩ : Produto).valor_unitario) := by
  refine ⟨?_, rfl, by norm_num⟩
  norm_num [normalizeProductData, parseNumericValue, pyStrip, pathBasename]
  decide

/-- **C1 amended.**  After consolidation, `total_price == quantity *
unit_price` holds for every emitted record that was formed by merging at
least two input records and whose merged quantity is positive (the last
merge recomputes the unit price as total over quantity); a record whose key
occurs only once is emitted exactly as supplied, so an inconsistent supplied
total survives consolidation. -/
theorem consolidated_total_spec (ps : List Produto) (r : Produto)
    (hmem : r ∈ consolidateProducts ps)
    (hq : 0 < r.quantidade)
    (hdup : 2 ≤ (ps.filter
        (fun x => generateProductKey x = generateProductKey r)).length) :
    r.valor_total = r.quantidade * r.valor_unitario := by
  obtain ⟨p, rest, hfil, hfold⟩ := mem_consolidate_fold hmem
  have hrest : rest ≠ [] := by
    intro hnil
    rw [hnil] at hfil
    rw [hfil] at hdup
    simp at hdup
  obtain ⟨l', x, hx⟩ := (List.eq_nil_or_concat rest).resolve_left hrest
  rw [List.concat_eq_append] at hx
  rw [hx, List.foldl_append, List.foldl_cons, List.foldl_nil] at hfold
  rw [hfold]
  exact merge_total_eq _ _ (hfold ▸ hq)

/-- Witness for `consolidated_total_spec`: two consistent records with the
same codigo merge into a record with `total = quantity * unit_price`. -/
theorem consolidated_total_spec_witness :
    (mergeProduto ⟨"K", "", "D", 1, 2, 2, "f"⟩ ⟨"K", "", "D", 1, 2, 2, "g"⟩).valor_total
      = (mergeProduto ⟨"K", "", "D", 1, 2, 2, "f"⟩ ⟨"K", "", "D", 1, 2, 2, "g"⟩).quantidade
        * (mergeProduto ⟨"K", "", "D", 1, 2, 2, "f"⟩ ⟨"K", "", "D", 1, 2, 2, "g"⟩).valor_unitario :=
  consolidated_total_spec [⟨"K", "", "D", 1, 2, 2, "f"⟩, ⟨"K", "", "D", 1, 2, 2, "g"⟩]
    (mergeProduto ⟨"K", "", "D", 1, 2, 2, "f"⟩ ⟨"K", "", "D", 1, 2, 2, "g"⟩)
    (by
      rw [consolidate_pair_eq (by decide)]
      exact List.mem_singleton.mpr rfl)
    (by norm_num [mergeProduto])
    (by decide)

/-! ## C10: the frame of a merge -/

/-- **C10.**  Every emitted record is the fold of `mergeProduto` over its
key group seeded by the first record of that key in input order, and its
`codigo`, `referencia` and `descricao` are exactly that first record's
fields: merging only ever rewrites `quantidade`, `valor_total`,
`valor_unitario` and `fonte`. -/
theorem consolidation_frame_spec (ps : List Produto) (r : Produto)
    (h : r ∈ consolidateProducts ps) :
    ∃ p rest,
      ps.filter (fun x => generateProductKey x = generateProductKey r) = p :: rest ∧
      r = List.foldl mergeProduto p rest ∧
      r.codigo = p.codigo ∧ r.referencia = p.referencia ∧ r.descricao = p.descricao := by
  obtain ⟨p, rest, hfil, hfold⟩ := mem_consolidate_fold h
  refine ⟨p, rest, hfil, hfold, ?_, ?_, ?_⟩
  · rw [hfold, foldl_merge_codigo]
  · rw [hfold, foldl_merge_referencia]
  · rw [hfold, foldl_merge_descricao]

/-- Witness for `consolidation_frame_spec` on a two-record merge. -/
theorem consolidation_frame_spec_witness :
    ∃ p rest,
      ([⟨"K", "", "D", 1, 2, 2, "f"⟩, ⟨"K", "", "D", 3, 4, 12, "g"⟩] : List Produto).filter
          (fun x => generateProductKey x
            = generateProductKey (mergeProduto ⟨"K", "", "D", 1, 2, 2, "f"⟩
                ⟨"K", "", "D", 3, 4, 12, "g"⟩)) = p :: rest ∧
      mergeProduto ⟨"K", "", "D", 1, 2, 2, "f"⟩ ⟨"K", "", "D", 3, 4, 12, "g"⟩
        = List.foldl mergeProduto p rest ∧
      (mergeProduto ⟨"K", "", "D", 1, 2, 2, "f"⟩ ⟨"K", "", "D", 3, 4, 12, "g"⟩).codigo
        = p.codigo ∧
      (mergeProduto ⟨"K", "", "D", 1, 2, 2, "f"⟩ ⟨"K", "", "D", 3, 4, 12, "g"⟩).referencia
        = p.referencia ∧
      (mergeProduto ⟨"K", "", "D", 1, 2, 2, "f"⟩ ⟨"K", "", "D", 3, 4, 12, "g"⟩).descricao
        = p.descricao :=
  consolidation_frame_spec [⟨"K", "", "D", 1, 2, 2, "f"⟩, ⟨"K", "", "D", 3, 4, 12, "g"⟩]
    (mergeProduto ⟨"K", "", "D", 1, 2, 2, "f"⟩ ⟨"K", "", "D", 3, 4, 12, "g"⟩)
    (by
      rw [consolidate_pair_eq (by decide)]
      exact List.mem_singleton.mpr rfl)

/-! ## C8: idempotence -/

lemma consolidateAux_entry_keys :
    ∀ (ps : List Produto) (acc : List (String × Produto)),
      (∀ e ∈ acc, generateProductKey e.2 = e.1) →
      ∀ e ∈ consolidateAux acc ps, generateProductKey e.2 = e.1 := by
  intro ps
  induction ps with
  | nil => intro acc h; exact h
  | cons p t ih =>
    intro acc h
    exact ih (insertP acc p) (insertP_entry_keys h)

lemma consolidateAux_keys_nodup :
    ∀ (ps : List Produto) (acc : List (String × Produto)),
      (acc.map Prod.fst).Nodup →
      ((consolidateAux acc ps).map Prod.fst).Nodup := by
  intro ps
  induction ps with
  | nil => intro acc h; exact h
  | cons p t ih =>
    intro acc h
    exact ih (insertP acc p) (insertP_keys_nodup h)

lemma consolidateAux_of_new_keys :
    ∀ (l : List Produto) (acc : List (String × Produto)),
      (l.map generateProductKey).Nodup →
      (∀ x ∈ l, generateProductKey x ∉ acc.map Prod.fst) →
      consolidateAux acc l = acc ++ l.map (fun p => (generateProductKey p, p)) := by
  intro l
  induction l with
  | nil => intro acc _ _; simp [consolidateAux]
  | cons p t ih =>
    intro acc hnd hnew
    have hstep : consolidateAux acc (p :: t) = consolidateAux (insertP acc p) t := rfl
    have hpnew : generateProductKey p ∉ acc.map Prod.fst :=
      hnew p (List.mem_cons_self p t)
    have happ : insertP acc p = acc ++ [(generateProductKey p, p)] :=
      insertP_of_not_mem hpnew
    have hhead : generateProductKey p ∉ t.map generateProductKey := by
      rw [List.map_cons] at hnd
      exact (List.nodup_cons.mp hnd).1
    have htail : ∀ x ∈ t, generateProductKey x ∉ (insertP acc p).map Prod.fst := by
      intro x hx
      rw [happ, List.map_append]
      intro hmem
      rcases List.mem_append.mp hmem with h1 | h1
      · exact hnew x (List.mem_cons.mpr (Or.inr hx)) h1
      · have : generateProductKey x = generateProductKey p := by simpa using h1
        exact hhead (this ▸ List.mem_map.mpr ⟨x, hx, rfl⟩)
    rw [hstep, ih (insertP acc p) (by rw [List.map_cons] at hnd; exact (List.nodup_cons.mp hnd).2) htail,
      happ]
    simp

lemma insertionSort_eq_self_of_sorted {α : Type} (r : α → α → Prop) [DecidableRel r] :
    ∀ {l : List α}, List.Sorted r l → List.insertionSort r l = l := by
  intro l h
  induction l with
  | nil => rfl
  | cons a t ih =>
    rw [List.insertionSort, ih h.of_cons]
    cases t with
    | nil => rfl
    | cons b t' =>
      rw [List.orderedInsert, if_pos (List.rel_of_sorted_cons h b (List.mem_cons_self b t'))]

/-- **C8.**  Consolidation is idempotent: re-running `_consolidate_products`
on already-consolidated input returns it unchanged (its keys are pairwise
distinct, so no merge fires, and the list is already sorted by
description). -/
theorem consolidate_idempotent (ps : List Produto) :
    consolidateProducts (consolidateProducts ps) = consolidateProducts ps := by
  have hek : ∀ e ∈ consolidateAux [] ps, generateProductKey e.2 = e.1 :=
    consolidateAux_entry_keys ps [] (by simp)
  have hnd : ((consolidateAux [] ps).map Prod.fst).Nodup :=
    consolidateAux_keys_nodup ps [] (by simp)
  have hvk : ((consolidateAux [] ps).map Prod.snd).map generateProductKey
      = (consolidateAux [] ps).map Prod.fst := by
    rw [List.map_map]
    exact List.map_congr_left (fun e he => hek e he)
  have hndv : (((consolidateAux [] ps).map Prod.snd).map generateProductKey).Nodup := by
    rw [hvk]
    exact hnd
  have hperm : List.Perm (consolidateProducts ps)
      ((consolidateAux [] ps).map Prod.snd) :=
    List.perm_insertionSort descLe _
  have hout_nodup : ((consolidateProducts ps).map generateProductKey).Nodup :=
    (hperm.map generateProductKey).nodup_iff.mpr hndv
  have h1 : consolidateAux [] (consolidateProducts ps)
      = (consolidateProducts ps).map (fun p => (generateProductKey p, p)) := by
    have := consolidateAux_of_new_keys (consolidateProducts ps) [] hout_nodup (by simp)
    simpa using this
  have h2 : (consolidateAux [] (consolidateProducts ps)).map Prod.snd
      = consolidateProducts ps := by
    rw [h1, List.map_map]
    exact List.map_id' _
  conv_lhs => rw [consolidateProducts]
  rw [h2]
  exact insertionSort_eq_self_of_sorted descLe
    (List.sorted_insertionSort descLe ((consolidateAux [] ps).map Prod.snd))

/-! ## C9: order independence -/

lemma consolidate_triple_all {A B C : Produto}
    (h1 : generateProductKey B = generateProductKey A)
    (h2 : generateProductKey C = generateProductKey A) :
    consolidateProducts [A, B, C] = [mergeProduto (mergeProduto A B) C] := by
  simp [consolidateProducts, consolidateAux, insertP, updateFirstP, h1, h2,
    generateProductKey_merge, List.insertionSort, List.orderedInsert]

lemma consolidate_triple_ab {A B C : Produto}
    (h1 : generateProductKey B = generateProductKey A)
    (h2 : ¬ generateProductKey A = generateProductKey C) :
    consolidateProducts [A, B, C]
      = List.insertionSort descLe [mergeProduto A B, C] := by
  simp [consolidateProducts, consolidateAux, insertP, updateFirstP, h1, h2,
    generateProductKey_merge]

lemma consolidate_triple_ac {A B C : Produto}
    (h1 : ¬ generateProductKey A = generateProductKey B)
    (h2 : generateProductKey C = generateProductKey A) :
    consolidateProducts [A, B, C]
      = List.insertionSort descLe [mergeProduto A C, B] := by
  simp [consolidateProducts, consolidateAux, insertP, updateFirstP, h1, h2]

lemma consolidate_triple_bc {A B C : Produto}
    (h1 : ¬ generateProductKey A = generateProductKey B)
    (h2 : generateProductKey C = generateProductKey B) :
    consolidateProducts [A, B, C]
      = List.insertionSort descLe [A, mergeProduto B C] := by
  simp [consolidateProducts, consolidateAux, insertP, updateFirstP, h1, h2]

lemma consolidate_triple_none {A B C : Produto}
    (h1 : ¬ generateProductKey A = generateProductKey B)
    (h2 : ¬ generateProductKey A = generateProductKey C)
    (h3 : ¬ generateProductKey B = generateProductKey C) :
    consolidateProducts [A, B, C] = List.insertionSort descLe [A, B, C] := by
  simp [consolidateProducts, consolidateAux, insertP, updateFirstP, h1, h2, h3]

lemma sort_pair (x y : Produto) :
    List.insertionSort descLe [x, y] = if descLe x y then [x, y] else [y, x] := by
  show List.orderedInsert descLe x [y] = _
  rw [List.orderedInsert]
  split_ifs <;> rfl

lemma sort_three_swap {x y z : Produto} (h : y.descricao < x.descricao) :
    List.insertionSort descLe [y, x, z] = List.insertionSort descLe [x, y, z] := by
  have hyx : descLe y x := le_of_lt h
  have hxy : ¬ descLe x y := not_le.mpr h
  by_cases hxz : descLe x z
  · have hyz : descLe y z := le_trans hyx hxz
    simp [List.insertionSort, List.orderedInsert, hxz, hyz, hyx, hxy]
  · by_cases hyz : descLe y z
    · simp [List.insertionSort, List.orderedInsert, hxz, hyz, hyx, hxy]
    · simp [List.insertionSort, List.orderedInsert, hxz, hyz, hyx, hxy]

/-- **C9.**  Consolidation is order independent in the claim's sense:
consolidating `[A, B]` first and then consolidating the result together
with `[C]` produces exactly the records of consolidating `[A, B, C]` in one
pass — for all records `A`, `B`, `C`, whatever keys they share (in
particular when `A` and `C` share a key). -/
theorem consolidate_order_independent (A B C : Produto) :
    consolidateProducts (consolidateProducts [A, B] ++ [C])
      = consolidateProducts [A, B, C] := by
  by_cases hAB : generateProductKey B = generateProductKey A
  · rw [consolidate_pair_eq hAB.symm]
    simp only [List.cons_append, List.nil_append]
    by_cases hC : generateProductKey C = generateProductKey A
    · have hmk : generateProductKey (mergeProduto A B) = generateProductKey C := by
        rw [generateProductKey_merge]
        exact hC.symm
      rw [consolidate_pair_eq hmk, consolidate_triple_all hAB hC]
    · have hmk : generateProductKey (mergeProduto A B) ≠ generateProductKey C := by
        rw [generateProductKey_merge]
        exact fun hh => hC hh.symm
      rw [consolidate_pair_ne hmk, consolidate_triple_ab hAB (fun hh => hC hh.symm)]
  · by_cases hle : descLe A B
    · have hpair : consolidateProducts [A, B] = [A, B] := by
        rw [consolidate_pair_ne (fun hh => hAB hh.symm), sort_pair, if_pos hle]
      rw [hpair]
      simp only [List.cons_append, List.nil_append]
    · have hlt : B.descricao < A.descricao := not_le.mp hle
      have hpair : consolidateProducts [A, B] = [B, A] := by
        rw [consolidate_pair_ne (fun hh => hAB hh.symm), sort_pair, if_neg hle]
      rw [hpair]
      simp only [List.cons_append, List.nil_append]
      by_cases hCA : generateProductKey C = generateProductKey A
      · rw [consolidate_triple_bc hAB hCA,
          consolidate_triple_ac (fun hh => hAB hh.symm) hCA,
          sort_pair, sort_pair]
        have h1 : descLe B (mergeProduto A C) := by
          show B.descricao ≤ (mergeProduto A C).descricao
          rw [descricao_merge]
          exact le_of_lt hlt
        have h2 : ¬ descLe (mergeProduto A C) B := by
          show ¬ (mergeProduto A C).descricao ≤ B.descricao
          rw [descricao_merge]
          exact not_le.mpr hlt
        rw [if_pos h1, if_neg h2]
      · by_cases hCB : generateProductKey C = generateProductKey B
        · rw [consolidate_triple_ac hAB hCB,
            consolidate_triple_bc (fun hh => hAB hh.symm) hCB,
            sort_pair, sort_pair]
          have h1 : descLe (mergeProduto B C) A := by
            show (mergeProduto B C).descricao ≤ A.descricao
            rw [descricao_merge]
            exact le_of_lt hlt
          have h2 : ¬ descLe A (mergeProduto B C) := by
            show ¬ A.descricao ≤ (mergeProduto B C).descricao
            rw [descricao_merge]
            exact not_le.mpr hlt
          rw [if_pos h1, if_neg h2]
        · rw [consolidate_triple_none hAB (fun hh => hCB hh.symm) (fun hh => hCA hh.symm),
            consolidate_triple_none (fun hh => hAB hh.symm) (fun hh => hCA hh.symm)
              (fun hh => hCB hh.symm)]
          exact sort_three_swap hlt
